import Mathlib

/-!
Verification development for a topic-based publish/subscribe broker
(`server.py`, `helper_types.py`).  The Python data structures are embedded
shallowly: dictionaries become association lists, Python sets become
duplicate-free lists, wall-clock timestamps become rationals, and the
event handlers (`handle_start`, `handle_disconnect`, `publish_messages`,
`unsubscribe`) become pure state-transforming functions.
-/

namespace PubSub

/-- Timestamps (Python `time()` floats) are embedded as integers: the code
only ever compares timestamps and subtracts the ttl from one, and every
handler is uniform in the choice of ordered time domain. -/
abbrev Time := ℤ

/-! ## Association-list primitives (embedding Python `dict` / `defaultdict`) -/

/-- Lookup with a default value, as a `defaultdict` read that does not
insert (value-level semantics of `d[k]`). -/
def lookupD {α β : Type} [DecidableEq α] (l : List (α × β)) (k : α) (d : β) : β :=
  match l with
  | [] => d
  | (k', v) :: rest => if k' = k then v else lookupD rest k d

/-- Python `k in d`. -/
def hasKey {α β : Type} [DecidableEq α] (l : List (α × β)) (k : α) : Bool :=
  match l with
  | [] => false
  | (k', _) :: rest => k' = k || hasKey rest k

/-- Python `d[k] = v`: replace the binding if the key exists, else add it. -/
def upsert {α β : Type} [DecidableEq α] (l : List (α × β)) (k : α) (v : β) : List (α × β) :=
  match l with
  | [] => [(k, v)]
  | (k', v') :: rest => if k' = k then (k, v) :: rest else (k', v') :: upsert rest k v

/-- Python `del d[k]`. -/
def eraseKey {α β : Type} [DecidableEq α] (l : List (α × β)) (k : α) : List (α × β) :=
  l.filter (fun e => e.1 ≠ k)

/-- Python `s.add(x)` on a set represented as a duplicate-free list. -/
def setInsert (l : List String) (x : String) : List String :=
  if x ∈ l then l else l ++ [x]

/-- Python `s.remove(x)`: raises `KeyError` (modelled as `none`) when the
element is absent. -/
def setRemove (l : List String) (x : String) : Option (List String) :=
  if x ∈ l then some (l.erase x) else none

/-! ## `helper_types.Message` -/

/-- `Message` from `helper_types.py`: publish time, content, and the set of
users still owed delivery. -/
structure Message where
  publish_time : Time
  content : String
  pending_users : List String
  deriving DecidableEq

/-- `Message.remove_user`: remove a user from `pending_users` when present. -/
def Message.remove_user (m : Message) (user_name : String) : Message :=
  if user_name ∈ m.pending_users then
    { m with pending_users := m.pending_users.erase user_name }
  else m

/-! ## `helper_types.PendingMessages` (the per-topic message logs)

The `messages` defaultdict is an association list from topic to log; `ttl`
is passed explicitly. -/

/-- The `PendingMessages.messages` dictionary. -/
abbrev PendingStore := List (String × List Message)

/-- `PendingMessages.get_topic_size`. -/
def get_topic_size (p : PendingStore) (topic : String) : Nat :=
  (lookupD p topic []).length

/-- `PendingMessages.add_new_message`: append to the topic's log tail
(`defaultdict` creates the empty log when the topic is new). -/
def add_new_message (p : PendingStore) (topic : String) (m : Message) : PendingStore :=
  upsert p topic (lookupD p topic [] ++ [m])

/-- The inner `while` loop of `PendingMessages.remove_old_messages` on one
topic's log: pop from the head while the head's publish time is older than
`now - ttl`. -/
def remove_old_messages_topic (ttl now : Time) : List Message → List Message
  | [] => []
  | m :: rest =>
    if m.publish_time < now - ttl then remove_old_messages_topic ttl now rest
    else m :: rest

/-- `PendingMessages.remove_old_messages`: run the head-ward eviction on
every topic's log. -/
def remove_old_messages (ttl now : Time) (p : PendingStore) : PendingStore :=
  p.map (fun e => (e.1, remove_old_messages_topic ttl now e.2))

/-- `PendingMessages.remove_fully_transmetted_messages`: the source collects
the indexes of messages with an empty `pending_users` and pops them in
descending order, which keeps exactly the messages whose `pending_users`
is non-empty, in order. -/
def remove_fully_transmetted_messages (log : List Message) : List Message :=
  log.filter (fun m => !m.pending_users.isEmpty)

/-- `PendingMessages.find_start_index`: index of the first message with
`publish_time >= disconnected_time`, or `none`. -/
def find_start_index (disconnected_time : Time) : List Message → Option Nat
  | [] => none
  | m :: rest =>
    if disconnected_time ≤ m.publish_time then some 0
    else (find_start_index disconnected_time rest).map (· + 1)

/-- `PendingMessages.get_message`: the message at `message_index` when
`0 <= message_index < get_topic_size topic`, else `None`. -/
def get_message (p : PendingStore) (topic : String) (message_index : Int) : Option Message :=
  if 0 ≤ message_index ∧ message_index < (get_topic_size p topic : Int) then
    (lookupD p topic []).get? message_index.toNat
  else none

/-! ## `helper_types.Subscriptions` -/

/-- `Subscriptions`: the two mutually derived views of the (user, topic)
pair set. -/
structure Subscriptions where
  user_to_topic_subscriptions : List (String × List String)
  topic_to_user_subscriptions : List (String × List String)
  deriving DecidableEq

/-- `Subscriptions.get_topics` (a `defaultdict` read: empty set if absent). -/
def Subscriptions.get_topics (s : Subscriptions) (user_name : String) : List String :=
  lookupD s.user_to_topic_subscriptions user_name []

/-- `Subscriptions.get_users`. -/
def Subscriptions.get_users (s : Subscriptions) (topic : String) : List String :=
  lookupD s.topic_to_user_subscriptions topic []

/-- `Subscriptions.add_user`: add the pair to both views. -/
def Subscriptions.add_user (s : Subscriptions) (user_name topic : String) : Subscriptions :=
  { user_to_topic_subscriptions :=
      upsert s.user_to_topic_subscriptions user_name
        (setInsert (lookupD s.user_to_topic_subscriptions user_name []) topic)
    topic_to_user_subscriptions :=
      upsert s.topic_to_user_subscriptions topic
        (setInsert (lookupD s.topic_to_user_subscriptions topic []) user_name) }

/-- `Subscriptions.remove_user`: guarded only by *key* presence in the two
dictionaries; the inner `set.remove` calls raise `KeyError` (modelled as
`none`) when the pair itself is absent from a present key's set. -/
def Subscriptions.remove_user (s : Subscriptions) (user_name topic : String) :
    Option Subscriptions :=
  if hasKey s.user_to_topic_subscriptions user_name
      && hasKey s.topic_to_user_subscriptions topic then
    match setRemove (lookupD s.user_to_topic_subscriptions user_name []) topic with
    | none => none
    | some ts =>
      match setRemove (lookupD s.topic_to_user_subscriptions topic []) user_name with
      | none => none
      | some us =>
        some { user_to_topic_subscriptions := upsert s.user_to_topic_subscriptions user_name ts
               topic_to_user_subscriptions := upsert s.topic_to_user_subscriptions topic us }
  else some s

/-! ## `helper_types.Sessions` -/

/-- `Sessions`: the two directions of the connection-handle/user map. -/
structure Sessions where
  user_sid_to_name_sessions : List (String × String)
  user_name_to_sid_sessions : List (String × String)
  deriving DecidableEq

/-- `Sessions.is_user_connected`. -/
def Sessions.is_user_connected (s : Sessions) (user_name : String) : Bool :=
  hasKey s.user_name_to_sid_sessions user_name

/-- `Sessions.get_user_name`: the name bound to a session id, or `None`. -/
def Sessions.get_user_name (s : Sessions) (user_sid : String) : Option String :=
  if hasKey s.user_sid_to_name_sessions user_sid then
    some (lookupD s.user_sid_to_name_sessions user_sid "")
  else none

/-- `Sessions.get_user_sid`. -/
def Sessions.get_user_sid (s : Sessions) (user_name : String) : Option String :=
  if s.is_user_connected user_name then
    some (lookupD s.user_name_to_sid_sessions user_name "")
  else none

/-- `Sessions.add_user`: bind the pair in both directions. -/
def Sessions.add_user (s : Sessions) (user_name user_sid : String) : Sessions :=
  { user_sid_to_name_sessions := upsert s.user_sid_to_name_sessions user_sid user_name
    user_name_to_sid_sessions := upsert s.user_name_to_sid_sessions user_name user_sid }

/-- `Sessions.remove_user_by_sid`: delete both directions, but only when the
sid is bound and the name it maps to is bound in the reverse map. -/
def Sessions.remove_user_by_sid (s : Sessions) (user_sid : String) : Sessions :=
  if hasKey s.user_sid_to_name_sessions user_sid then
    let user_name := lookupD s.user_sid_to_name_sessions user_sid ""
    if hasKey s.user_name_to_sid_sessions user_name then
      { user_sid_to_name_sessions := eraseKey s.user_sid_to_name_sessions user_sid
        user_name_to_sid_sessions := eraseKey s.user_name_to_sid_sessions user_name }
    else s
  else s

/-- `Sessions.get_all_connected_user_names`. -/
def Sessions.get_all_connected_user_names (s : Sessions) : List String :=
  s.user_name_to_sid_sessions.map Prod.fst

/-! ## `server.py` global state and event handlers -/

/-- One `emit("response", ...)` to the connecting client: the jsonified
message plus the topic field added by `handle_start`. -/
structure Emit where
  topic : String
  publish_time : Time
  content : String
  deriving DecidableEq

/-- The module-level mutable state of `server.py`: `subscriptions`,
`pending_messages.messages`, `sessions`, `last_disconnected_time`.  The
keys of `last_disconnected_time` are `Option String` because
`handle_disconnect` writes the result of `get_user_name`, which is `None`
for an unknown sid. -/
structure ServerState where
  subs : Subscriptions
  pending : PendingStore
  sessions : Sessions
  last_disconnected_time : List (Option String × Time)
  deriving DecidableEq

/-- The read in `handle_start`:
`last_disconnected_time[user_name] if user_name in last_disconnected_time else 0`. -/
def disconnectedTimeOf (st : ServerState) (user_name : String) : Time :=
  if hasKey st.last_disconnected_time (some user_name) then
    lookupD st.last_disconnected_time (some user_name) 0
  else 0

/-- The body of `handle_start`'s per-topic loop: find the catch-up start
index; emit every message from there to the end (adding the topic field),
removing the user from each emitted message's `pending_users`; then purge
fully transmitted messages.  The emissions are computed from the log at
loop entry because removing a pending user changes neither the length nor
the order nor the payload of the log. -/
def process_topic (user_name : String) (disconnected_time : Time) (topic : String)
    (log : List Message) : List Emit × List Message :=
  match find_start_index disconnected_time log with
  | none => ([], log)
  | some s =>
    ((log.drop s).map (fun m => ⟨topic, m.publish_time, m.content⟩),
     remove_fully_transmetted_messages
       (log.take s ++ (log.drop s).map (fun m => m.remove_user user_name)))

/-- The `for topic in topics` loop of `handle_start`, threading the pending
store through the per-topic processing. -/
def handle_topics (user_name : String) (disconnected_time : Time) :
    List String → PendingStore → List Emit × PendingStore
  | [], p => ([], p)
  | t :: ts, p =>
    let r := process_topic user_name disconnected_time t (lookupD p t [])
    let rest := handle_topics user_name disconnected_time ts (upsert p t r.2)
    (r.1 ++ rest.1, rest.2)

/-- Result of the `start` handler: the new server state, the messages
emitted to the connecting client, and whether the incoming connection was
terminated (`disconnect()` on an already-connected user name). -/
structure StartResult where
  state : ServerState
  emits : List Emit
  rejected : Bool
  deriving DecidableEq

/-- `handle_start` from `server.py`: reject when the user name already has
a live session; otherwise register the session, compute the catch-up start
time (0 when the user has no recorded disconnect), evict expired messages,
and replay each subscribed topic's log from the catch-up index. -/
def handle_start (ttl : Time) (st : ServerState) (user_sid user_name : String)
    (now : Time) : StartResult :=
  if st.sessions.is_user_connected user_name then ⟨st, [], true⟩
  else
    let sessions1 := st.sessions.add_user user_name user_sid
    let topics := st.subs.get_topics user_name
    let disconnected_time := disconnectedTimeOf st user_name
    let p1 := remove_old_messages ttl now st.pending
    let r := handle_topics user_name disconnected_time topics p1
    ⟨{ st with sessions := sessions1, pending := r.2 }, r.1, false⟩

/-- `handle_disconnect` from `server.py`: record `now` under the key
`get_user_name user_sid` (which is `none` for an unknown sid) and remove
the session binding. -/
def handle_disconnect (st : ServerState) (user_sid : String) (now : Time) : ServerState :=
  { st with
    last_disconnected_time :=
      upsert st.last_disconnected_time (st.sessions.get_user_name user_sid) now
    sessions := st.sessions.remove_user_by_sid user_sid }

/-- `_get_pending_users`: subscribers of the topic minus the currently
connected user names (set difference as a filter; membership in the
connected-name set coincides with `is_user_connected`). -/
def get_pending_users (st : ServerState) (topic : String) : List String :=
  (st.subs.get_users topic).filter (fun u => !st.sessions.is_user_connected u)

/-- One well-formed iteration of the `publish_messages` loop: emit live to
the topic room (not modelled — it touches no broker state) and append a
pending message exactly when some subscriber is offline. -/
def publish_one (st : ServerState) (topic content : String) (publish_time : Time) :
    ServerState :=
  let pending_users := get_pending_users st topic
  if pending_users.isEmpty then st
  else { st with pending := add_new_message st.pending topic ⟨publish_time, content, pending_users⟩ }

/-- One iteration of the `unsubscribe` endpoint's topic loop: guarded by
`topic in subscriptions.get_topics(user_name)`; when taken it removes the
pair from the registry, strips the user from the topic's pending messages
and purges fully transmitted ones.  `none` models a propagated exception. -/
def unsubscribe_topic (st : ServerState) (user_name topic : String) : Option ServerState :=
  if topic ∈ st.subs.get_topics user_name then
    match st.subs.remove_user user_name topic with
    | none => none
    | some subs1 =>
      some { st with
             subs := subs1
             pending := upsert st.pending topic
               (remove_fully_transmetted_messages
                 ((lookupD st.pending topic []).map (fun m => m.remove_user user_name))) }
  else some st

/-- The connect/disconnect event alphabet of the session state machine. -/
inductive Event where
  | connect (user_sid user_name : String) (now : Time)
  | disconnect (user_sid : String) (now : Time)
  deriving DecidableEq

/-- One event step of the broker. -/
def step (ttl : Time) (st : ServerState) : Event → ServerState
  | .connect sid name now => (handle_start ttl st sid name now).state
  | .disconnect sid now => handle_disconnect st sid now

/-- Run a sequence of events. -/
def run (ttl : Time) (st : ServerState) : List Event → ServerState
  | [] => st
  | e :: es => run ttl (step ttl st e) es

/-- The broker state at process start: all four stores empty. -/
def initState : ServerState :=
  ⟨⟨[], []⟩, [], ⟨[], []⟩, []⟩

/-! ## Association-list lemmas -/

theorem lookupD_upsert_self {α β : Type} [DecidableEq α] (l : List (α × β)) (k : α) (v : β)
    (d : β) : lookupD (upsert l k v) k d = v := by
  induction l with
  | nil => simp [upsert, lookupD]
  | cons e rest ih =>
    obtain ⟨k', v'⟩ := e
    by_cases h : k' = k
    · simp [upsert, h, lookupD]
    · simp [upsert, h, lookupD, ih]

theorem lookupD_upsert_ne {α β : Type} [DecidableEq α] (l : List (α × β)) {k k' : α} (v : β)
    (d : β) (hne : k' ≠ k) : lookupD (upsert l k v) k' d = lookupD l k' d := by
  have hne' : ¬ (k = k') := fun h => hne h.symm
  induction l with
  | nil =>
    simp only [upsert, lookupD]
    rw [if_neg hne']
  | cons e rest ih =>
    obtain ⟨k0, v0⟩ := e
    by_cases h : k0 = k
    · subst h
      simp only [upsert, if_pos rfl, lookupD]
      rw [if_neg hne', if_neg hne']
    · simp only [upsert, if_neg h, lookupD]
      by_cases h' : k0 = k'
      · simp [h']
      · simp [h', ih]

theorem hasKey_iff {α β : Type} [DecidableEq α] (l : List (α × β)) (k : α) :
    hasKey l k = true ↔ k ∈ l.map Prod.fst := by
  induction l with
  | nil => simp [hasKey]
  | cons e rest ih =>
    obtain ⟨k0, v0⟩ := e
    simp only [hasKey, Bool.or_eq_true, decide_eq_true_eq, ih, List.map_cons, List.mem_cons]
    exact or_congr eq_comm Iff.rfl

theorem hasKey_upsert_ne {α β : Type} [DecidableEq α] (l : List (α × β)) {k k' : α} (v : β)
    (hne : k' ≠ k) : hasKey (upsert l k v) k' = hasKey l k' := by
  induction l with
  | nil => simp [upsert, hasKey, hne.symm]
  | cons e rest ih =>
    obtain ⟨k0, v0⟩ := e
    by_cases h : k0 = k
    · subst h
      simp [upsert, hasKey]
    · simp [upsert, h, hasKey, ih]

theorem lookupD_of_not_hasKey {α β : Type} [DecidableEq α] {l : List (α × β)} {k : α}
    (d : β) (h : hasKey l k = false) : lookupD l k d = d := by
  induction l with
  | nil => simp [lookupD]
  | cons e rest ih =>
    obtain ⟨k0, v0⟩ := e
    simp only [hasKey, Bool.or_eq_false_iff, decide_eq_false_iff_not] at h
    simp [lookupD, h.1, ih h.2]

theorem mem_of_hasKey_lookupD {α β : Type} [DecidableEq α] {l : List (α × β)} {k : α}
    (d : β) (h : hasKey l k = true) : (k, lookupD l k d) ∈ l := by
  induction l with
  | nil => simp [hasKey] at h
  | cons e rest ih =>
    obtain ⟨k0, v0⟩ := e
    by_cases hk : k0 = k
    · subst hk
      simp [lookupD]
    · simp only [hasKey, Bool.or_eq_true, decide_eq_true_eq, hk, false_or] at h
      simp [lookupD, hk, ih h]

theorem hasKey_of_mem {α β : Type} [DecidableEq α] {l : List (α × β)} {k : α} {v : β}
    (h : (k, v) ∈ l) : hasKey l k = true := by
  rw [hasKey_iff]
  exact List.mem_map_of_mem Prod.fst h

theorem upsert_of_not_hasKey {α β : Type} [DecidableEq α] {l : List (α × β)} {k : α} (v : β)
    (h : hasKey l k = false) : upsert l k v = l ++ [(k, v)] := by
  induction l with
  | nil => simp [upsert]
  | cons e rest ih =>
    obtain ⟨k0, v0⟩ := e
    simp only [hasKey, Bool.or_eq_false_iff, decide_eq_false_iff_not] at h
    simp [upsert, h.1, ih h.2]

theorem lookupD_map_values {α β : Type} [DecidableEq α] (f : β → β) (l : List (α × β))
    (k : α) (d : β) (hd : f d = d) :
    lookupD (l.map (fun e => (e.1, f e.2))) k d = f (lookupD l k d) := by
  induction l with
  | nil => simp [lookupD, hd]
  | cons e rest ih =>
    obtain ⟨k0, v0⟩ := e
    by_cases h : k0 = k
    · simp [lookupD, h]
    · simp [lookupD, h, ih]

/-- Keys of an association list are pairwise distinct. -/
def NodupKeys {α β : Type} (l : List (α × β)) : Prop := (l.map Prod.fst).Nodup

theorem keys_upsert {α β : Type} [DecidableEq α] (l : List (α × β)) (k k' : α) (v : β) :
    k' ∈ (upsert l k v).map Prod.fst ↔ k' ∈ l.map Prod.fst ∨ k' = k := by
  induction l with
  | nil => simp [upsert]
  | cons e rest ih =>
    obtain ⟨k0, v0⟩ := e
    by_cases h : k0 = k
    · subst h
      simp [upsert]
      tauto
    · simp [upsert, h, ih]
      tauto

theorem NodupKeys.upsert {α β : Type} [DecidableEq α] {l : List (α × β)} (k : α) (v : β)
    (h : NodupKeys l) : NodupKeys (upsert l k v) := by
  induction l with
  | nil => simp [PubSub.upsert, NodupKeys]
  | cons e rest ih =>
    obtain ⟨k0, v0⟩ := e
    simp only [NodupKeys, List.map_cons, List.nodup_cons] at h
    by_cases hk : k0 = k
    · subst hk
      have he : PubSub.upsert ((k0, v0) :: rest) k0 v = (k0, v) :: rest := by
        simp [PubSub.upsert]
      rw [he]
      simp only [NodupKeys, List.map_cons, List.nodup_cons]
      exact h
    · have h' := ih h.2
      simp only [PubSub.upsert, if_neg hk, NodupKeys, List.map_cons, List.nodup_cons]
      refine ⟨?_, h'⟩
      intro hmem
      rcases (keys_upsert rest k k0 v).1 hmem with hh | hh
      · exact h.1 hh
      · exact hk hh

theorem NodupKeys.eraseKey {α β : Type} [DecidableEq α] {l : List (α × β)} (k : α)
    (h : NodupKeys l) : NodupKeys (eraseKey l k) := by
  unfold NodupKeys PubSub.eraseKey
  exact h.sublist (List.Sublist.map Prod.fst (List.filter_sublist l))

theorem mem_eraseKey {α β : Type} [DecidableEq α] (l : List (α × β)) (k : α) (e : α × β) :
    e ∈ eraseKey l k ↔ e ∈ l ∧ e.1 ≠ k := by
  simp [eraseKey, List.mem_filter]

/-- In an association list with distinct keys, a key determines its value. -/
theorem NodupKeys.value_eq {α β : Type} {l : List (α × β)} (h : NodupKeys l) {k : α}
    {v v' : β} (h1 : (k, v) ∈ l) (h2 : (k, v') ∈ l) : v = v' := by
  induction l with
  | nil => simp at h1
  | cons e rest ih =>
    simp only [NodupKeys, List.map_cons, List.nodup_cons] at h
    rcases List.mem_cons.1 h1 with rfl | h1'
    · rcases List.mem_cons.1 h2 with he | h2'
      · exact ((Prod.ext_iff.1 he).2).symm
      · exact absurd (List.mem_map_of_mem Prod.fst h2') h.1
    · rcases List.mem_cons.1 h2 with rfl | h2'
      · exact absurd (List.mem_map_of_mem Prod.fst h1') h.1
      · exact ih h.2 h1' h2'

/-- In an association list with distinct keys, membership determines the
`lookupD` result. -/
theorem NodupKeys.lookupD_eq {α β : Type} [DecidableEq α] {l : List (α × β)} (h : NodupKeys l)
    {k : α} {v : β} (hmem : (k, v) ∈ l) (d : β) : lookupD l k d = v := by
  have hk : hasKey l k = true := hasKey_of_mem hmem
  exact h.value_eq (mem_of_hasKey_lookupD d hk) hmem

/-! ## Eviction and catch-up lemmas -/

theorem Message.remove_user_publish_time (m : Message) (u : String) :
    (m.remove_user u).publish_time = m.publish_time := by
  unfold Message.remove_user
  split <;> rfl

theorem remove_old_messages_topic_sublist (ttl now : Time) (log : List Message) :
    List.Sublist (remove_old_messages_topic ttl now log) log := by
  induction log with
  | nil => simp [remove_old_messages_topic]
  | cons m rest ih =>
    simp only [remove_old_messages_topic]
    by_cases h : m.publish_time < now - ttl
    · simp only [if_pos h]
      exact ih.trans (List.sublist_cons_self m rest)
    · simp [if_neg h]

/-- The head-ward eviction loop removes exactly the maximal expired head
run: it is `dropWhile (publish_time < now - ttl)`. -/
theorem remove_old_messages_topic_eq_dropWhile (ttl now : Time) (log : List Message) :
    remove_old_messages_topic ttl now log
      = log.dropWhile (fun m => decide (m.publish_time < now - ttl)) := by
  induction log with
  | nil => rfl
  | cons m rest ih =>
    simp only [remove_old_messages_topic, List.dropWhile]
    by_cases h : m.publish_time < now - ttl
    · simp [h, ih]
    · simp [h]

/-- An unexpired message sitting at the log tail survives the eviction. -/
theorem mem_remove_old_of_last (ttl now : Time) (old : List Message) {M : Message}
    (h : ¬ M.publish_time < now - ttl) :
    M ∈ remove_old_messages_topic ttl now (old ++ [M]) := by
  induction old with
  | nil => simp [remove_old_messages_topic, if_neg h]
  | cons m rest ih =>
    simp only [List.cons_append, remove_old_messages_topic]
    by_cases hm : m.publish_time < now - ttl
    · simpa [hm] using ih
    · simp [hm]

/-- On a publish-time-sorted log, eviction leaves only unexpired messages. -/
theorem remove_old_messages_topic_bound (ttl now : Time) (log : List Message)
    (hsorted : log.Pairwise (fun a b => a.publish_time ≤ b.publish_time)) :
    ∀ m ∈ remove_old_messages_topic ttl now log, now - ttl ≤ m.publish_time := by
  induction log with
  | nil => simp [remove_old_messages_topic]
  | cons m rest ih =>
    simp only [remove_old_messages_topic]
    rcases List.pairwise_cons.1 hsorted with ⟨hm, hrest⟩
    by_cases h : m.publish_time < now - ttl
    · simpa [h] using ih hrest
    · intro x hx
      rcases List.mem_cons.1 (by simpa [h] using hx) with rfl | hx'
      · exact le_of_not_lt h
      · exact le_trans (le_of_not_lt h) (hm x hx')

theorem find_start_index_exists {dt : Time} {log : List Message} {m : Message}
    (hm : m ∈ log) (hp : dt ≤ m.publish_time) :
    ∃ s, find_start_index dt log = some s := by
  induction log with
  | nil => simp at hm
  | cons x rest ih =>
    simp only [find_start_index]
    by_cases h : dt ≤ x.publish_time
    · exact ⟨0, by simp [h]⟩
    · rcases List.mem_cons.1 hm with rfl | hm'
      · exact absurd hp h
      · rcases ih hm' with ⟨s, hs⟩
        exact ⟨s + 1, by simp [h, hs]⟩

/-- `find_start_index` returns the first qualifying index, so every
qualifying message is in the replayed suffix. -/
theorem mem_drop_find_start {dt : Time} {log : List Message} {m : Message} {s : Nat}
    (hm : m ∈ log) (hp : dt ≤ m.publish_time) (hs : find_start_index dt log = some s) :
    m ∈ log.drop s := by
  induction log generalizing s with
  | nil => simp at hm
  | cons x rest ih =>
    simp only [find_start_index] at hs
    by_cases h : dt ≤ x.publish_time
    · simp only [if_pos h, Option.some.injEq] at hs
      subst hs
      simpa using hm
    · simp only [if_neg h, Option.map_eq_some'] at hs
      rcases hs with ⟨s', hs', rfl⟩
      rcases List.mem_cons.1 hm with rfl | hm'
      · exact absurd hp h
      · exact ih hm' hs'

/-! ## Lemmas about the per-topic replay loop -/

theorem process_topic_emits_mem (u : String) (dt : Time) (t : String) (log : List Message) :
    ∀ e ∈ (process_topic u dt t log).1,
      ∃ m ∈ log, e = ⟨t, m.publish_time, m.content⟩ := by
  intro e he
  unfold process_topic at he
  cases hfs : find_start_index dt log with
  | none => simp [hfs] at he
  | some s =>
    rw [hfs] at he
    simp only at he
    rcases List.mem_map.1 he with ⟨m, hm, rfl⟩
    exact ⟨m, List.mem_of_mem_drop hm, rfl⟩

theorem process_topic_emits_topic (u : String) (dt : Time) (t : String) (log : List Message) :
    ∀ e ∈ (process_topic u dt t log).1, e.topic = t := by
  intro e he
  rcases process_topic_emits_mem u dt t log e he with ⟨m, _, rfl⟩
  rfl

/-- Every message in the post-replay log has the publish time of a message
of the input log (user removal and purge do not create new publish times). -/
theorem process_topic_log_times (u : String) (dt : Time) (t : String) (log : List Message) :
    ∀ m' ∈ (process_topic u dt t log).2, ∃ m ∈ log, m'.publish_time = m.publish_time := by
  intro m' hm'
  unfold process_topic at hm'
  cases hfs : find_start_index dt log with
  | none =>
    rw [hfs] at hm'
    exact ⟨m', hm', rfl⟩
  | some s =>
    rw [hfs] at hm'
    simp only [remove_fully_transmetted_messages] at hm'
    have hm'' := List.mem_of_mem_filter hm'
    rcases List.mem_append.1 hm'' with h | h
    · exact ⟨m', List.mem_of_mem_take h, rfl⟩
    · rcases List.mem_map.1 h with ⟨m, hm, rfl⟩
      exact ⟨m, List.mem_of_mem_drop hm, Message.remove_user_publish_time m u⟩

theorem handle_topics_emits_topics (u : String) (dt : Time) (ts : List String)
    (p : PendingStore) : ∀ e ∈ (handle_topics u dt ts p).1, e.topic ∈ ts := by
  induction ts generalizing p with
  | nil => simp [handle_topics]
  | cons t rest ih =>
    intro e he
    simp only [handle_topics, List.mem_append] at he
    rcases he with he | he
    · exact List.mem_cons.2 (Or.inl (process_topic_emits_topic u dt t _ e he))
    · exact List.mem_cons.2 (Or.inr (ih _ e he))

/-- With duplicate-free topics, the replay loop emits, topic by topic, the
result of processing that topic's log in the store as it stood at loop
entry. -/
theorem handle_topics_emits (u : String) (dt : Time) (ts : List String) (p : PendingStore)
    (hnd : ts.Nodup) :
    (handle_topics u dt ts p).1
      = (ts.map (fun t => (process_topic u dt t (lookupD p t [])).1)).flatten := by
  induction ts generalizing p with
  | nil => rfl
  | cons t rest ih =>
    rcases List.nodup_cons.1 hnd with ⟨hnotin, hnd'⟩
    simp only [handle_topics, List.map_cons, List.flatten_cons]
    congr 1
    rw [ih _ hnd']
    congr 1
    apply List.map_congr_left
    intro t' ht'
    have hne : t' ≠ t := fun h => hnotin (h ▸ ht')
    rw [lookupD_upsert_ne _ _ _ hne]

/-- Every publish time appearing in the replay emissions satisfies any
predicate holding of every publish time stored in the pending store. -/
theorem handle_topics_emits_bound (u : String) (dt : Time) (ts : List String)
    (p : PendingStore) (Q : Time → Prop)
    (hQ : ∀ t m, m ∈ lookupD p t [] → Q m.publish_time) :
    ∀ e ∈ (handle_topics u dt ts p).1, Q e.publish_time := by
  induction ts generalizing p with
  | nil => simp [handle_topics]
  | cons t rest ih =>
    intro e he
    simp only [handle_topics, List.mem_append] at he
    rcases he with he | he
    · rcases process_topic_emits_mem u dt t _ e he with ⟨m, hm, rfl⟩
      exact hQ t m hm
    · refine ih _ ?_ e he
      intro t' m hm
      by_cases h : t' = t
      · subst h
        rw [lookupD_upsert_self] at hm
        rcases process_topic_log_times u dt t' (lookupD p t' []) m hm with ⟨m0, hm0, heq⟩
        rw [heq]
        exact hQ t' m0 hm0
      · rw [lookupD_upsert_ne _ _ _ h] at hm
        exact hQ t' m hm

theorem process_topic_countP (u : String) (dt : Time) (T : String) (tp : Time) (c : String)
    (log : List Message) {s : Nat} (hs : find_start_index dt log = some s) :
    ((process_topic u dt T log).1).countP
        (fun e => decide (e.topic = T ∧ e.publish_time = tp ∧ e.content = c))
      = (log.drop s).countP (fun m => decide (m.publish_time = tp ∧ m.content = c)) := by
  unfold process_topic
  rw [hs]
  simp only
  rw [List.countP_map]
  have hfun : ((fun e : Emit => decide (e.topic = T ∧ e.publish_time = tp ∧ e.content = c))
        ∘ (fun m : Message => (⟨T, m.publish_time, m.content⟩ : Emit)))
      = fun m : Message => decide (m.publish_time = tp ∧ m.content = c) := by
    funext m
    simp [Function.comp]
  rw [hfun]

/-- With distinct topics, the count of emissions matching a fixed topic,
publish time, and content across the whole replay loop is the count
produced while that one topic was processed, on its log at loop entry. -/
theorem handle_topics_countP (u : String) (dt : Time) (T : String) (tp : Time) (c : String)
    (ts : List String) (p : PendingStore) (hnd : ts.Nodup) (hT : T ∈ ts) :
    ((handle_topics u dt ts p).1).countP
        (fun e => decide (e.topic = T ∧ e.publish_time = tp ∧ e.content = c))
      = ((process_topic u dt T (lookupD p T [])).1).countP
        (fun e => decide (e.topic = T ∧ e.publish_time = tp ∧ e.content = c)) := by
  induction ts generalizing p with
  | nil => simp at hT
  | cons t rest ih =>
    rcases List.nodup_cons.1 hnd with ⟨hnotin, hnd'⟩
    simp only [handle_topics, List.countP_append]
    rcases List.mem_cons.1 hT with rfl | hT'
    · have hrest :
          ((handle_topics u dt rest (upsert p T (process_topic u dt T (lookupD p T [])).2)).1).countP
              (fun e => decide (e.topic = T ∧ e.publish_time = tp ∧ e.content = c)) = 0 := by
        rw [List.countP_eq_zero]
        intro e he
        have htop := handle_topics_emits_topics u dt rest _ e he
        simp only [decide_eq_true_eq, not_and]
        intro hpe
        rw [hpe] at htop
        exact absurd htop hnotin
      rw [hrest, Nat.add_zero]
    · have ht : t ≠ T := fun h => hnotin (h ▸ hT')
      have hzero :
          ((process_topic u dt t (lookupD p t [])).1).countP
              (fun e => decide (e.topic = T ∧ e.publish_time = tp ∧ e.content = c)) = 0 := by
        rw [List.countP_eq_zero]
        intro e he
        have htop := process_topic_emits_topic u dt t _ e he
        simp [htop, ht]
      rw [hzero, Nat.zero_add, ih _ hnd' hT',
        lookupD_upsert_ne _ _ _ (fun h => ht h.symm)]

/-! ## Unfolding lemmas for `handle_start` -/

/-- `handle_start` for a user without a live session: register the session
and replay; everything else is frame-preserved. -/
theorem handle_start_not_connected (ttl : Time) (st : ServerState) (sid u : String)
    (now : Time) (h : st.sessions.is_user_connected u = false) :
    handle_start ttl st sid u now
      = ⟨{ st with
            sessions := st.sessions.add_user u sid,
            pending := (handle_topics u (disconnectedTimeOf st u) (st.subs.get_topics u)
              (remove_old_messages ttl now st.pending)).2 },
         (handle_topics u (disconnectedTimeOf st u) (st.subs.get_topics u)
           (remove_old_messages ttl now st.pending)).1,
         false⟩ := by
  unfold handle_start
  rw [if_neg (by simp [h])]

theorem lookupD_remove_old (ttl now : Time) (p : PendingStore) (t : String) :
    lookupD (remove_old_messages ttl now p) t []
      = remove_old_messages_topic ttl now (lookupD p t []) := by
  exact lookupD_map_values (remove_old_messages_topic ttl now) p t [] rfl

/-- `publish_one` with at least one offline subscriber appends the message. -/
theorem publish_one_of_offline {st : ServerState} {T U : String} (c : String) (tp : Time)
    (hU : U ∈ get_pending_users st T) :
    publish_one st T c tp
      = { st with pending := upsert st.pending T
                    (lookupD st.pending T [] ++ [⟨tp, c, get_pending_users st T⟩]) } := by
  have hne : (get_pending_users st T).isEmpty = false := by
    cases h : get_pending_users st T with
    | nil => rw [h] at hU; simp at hU
    | cons a l => rfl
  unfold publish_one add_new_message
  simp [hne]

/-- Claim C2: if user `U` is subscribed to topic `T` and offline when a
message with fresh (publish time, content) is published to `T`, then the
next `Connect` within `ttl` seconds of the publish delivers that message
to `U` exactly once (the emission with topic `T` and the message's publish
time and content occurs exactly once in the replay). -/
theorem offline_subscriber_delivered_once
    (st : ServerState) (sid U T : String) (tp : Time) (c : String) (now ttl : Time)
    (hsub1 : T ∈ st.subs.get_topics U)
    (hsub2 : U ∈ st.subs.get_users T)
    (hnd : (st.subs.get_topics U).Nodup)
    (hconn : st.sessions.is_user_connected U = false)
    (hdisc : disconnectedTimeOf st U ≤ tp)
    (httl : now - tp ≤ ttl)
    (hfresh : ∀ m ∈ lookupD st.pending T [], ¬(m.publish_time = tp ∧ m.content = c)) :
    ((handle_start ttl (publish_one st T c tp) sid U now).emits).countP
        (fun e => decide (e.topic = T ∧ e.publish_time = tp ∧ e.content = c)) = 1 := by
  have hUo : U ∈ get_pending_users st T := by
    simp [get_pending_users, List.mem_filter, hsub2, hconn]
  rw [publish_one_of_offline c tp hUo]
  set M : Message := ⟨tp, c, get_pending_users st T⟩ with hM
  set st1 : ServerState :=
    { st with pending := upsert st.pending T (lookupD st.pending T [] ++ [M]) } with hst1
  have hconn1 : st1.sessions.is_user_connected U = false := hconn
  rw [handle_start_not_connected ttl st1 sid U now hconn1]
  simp only
  have htopics : st1.subs.get_topics U = st.subs.get_topics U := rfl
  have hdt : disconnectedTimeOf st1 U = disconnectedTimeOf st U := rfl
  rw [handle_topics_countP U _ T tp c _ _ (htopics ▸ hnd) (htopics ▸ hsub1)]
  have hlog : lookupD (remove_old_messages ttl now st1.pending) T []
      = remove_old_messages_topic ttl now (lookupD st.pending T [] ++ [M]) := by
    rw [lookupD_remove_old]
    congr 1
    exact lookupD_upsert_self st.pending T _ []
  rw [hlog]
  have hMfresh : ¬ M.publish_time < now - ttl := by
    show ¬ tp < now - ttl
    linarith
  have hMev : M ∈ remove_old_messages_topic ttl now (lookupD st.pending T [] ++ [M]) :=
    mem_remove_old_of_last ttl now _ hMfresh
  have hdM : disconnectedTimeOf st1 U ≤ M.publish_time := by
    rw [hdt]
    exact hdisc
  obtain ⟨s, hs⟩ := find_start_index_exists hMev hdM
  rw [process_topic_countP U _ T tp c _ hs]
  have hMds : M ∈ (remove_old_messages_topic ttl now (lookupD st.pending T [] ++ [M])).drop s :=
    mem_drop_find_start hMev hdM hs
  apply le_antisymm
  · have h1 : List.Sublist
        ((remove_old_messages_topic ttl now (lookupD st.pending T [] ++ [M])).drop s)
        (lookupD st.pending T [] ++ [M]) :=
      (List.drop_sublist s _).trans (remove_old_messages_topic_sublist ttl now _)
    have h2 := h1.countP_le (fun m => decide (m.publish_time = tp ∧ m.content = c))
    have h3 : (lookupD st.pending T [] ++ [M]).countP
        (fun m => decide (m.publish_time = tp ∧ m.content = c)) = 1 := by
      rw [List.countP_append]
      have hz : (lookupD st.pending T []).countP
          (fun m => decide (m.publish_time = tp ∧ m.content = c)) = 0 := by
        rw [List.countP_eq_zero]
        intro m hm
        simpa using hfresh m hm
      rw [hz]
      simp [hM]
    omega
  · have : 0 < ((remove_old_messages_topic ttl now
        (lookupD st.pending T [] ++ [M])).drop s).countP
        (fun m => decide (m.publish_time = tp ∧ m.content = c)) := by
      rw [List.countP_pos_iff]
      exact ⟨M, hMds, by simp [hM]⟩
    omega

/-- Witness for C2 at a concrete state: `u` subscribed to `t`, offline, a
message published at time 0, reconnect at time 5 with ttl 10. -/
theorem offline_subscriber_delivered_once_witness :
    ((handle_start 10 (publish_one ⟨⟨[("u", ["t"])], [("t", ["u"])]⟩, [], ⟨[], []⟩, []⟩
        "t" "m" 0) "s" "u" 5).emits).countP
      (fun e => decide (e.topic = "t" ∧ e.publish_time = 0 ∧ e.content = "m")) = 1 :=
  offline_subscriber_delivered_once ⟨⟨[("u", ["t"])], [("t", ["u"])]⟩, [], ⟨[], []⟩, []⟩
    "s" "u" "t" 0 "m" 5 10 (by decide) (by decide) (by decide) (by decide)
    (by decide) (by decide) (by decide)

/-! ## Session-registry invariants -/

/-- The session effect of `handle_start`: either rejected (unchanged) or a
fresh binding of the user to the incoming sid. -/
theorem handle_start_sessions (ttl : Time) (st : ServerState) (sid u : String) (now : Time) :
    (handle_start ttl st sid u now).state.sessions
      = if st.sessions.is_user_connected u then st.sessions
        else st.sessions.add_user u sid := by
  unfold handle_start
  split <;> rfl

theorem handle_disconnect_sessions (st : ServerState) (sid : String) (now : Time) :
    (handle_disconnect st sid now).sessions = st.sessions.remove_user_by_sid sid := rfl

/-- Both session maps have duplicate-free key lists. -/
def SessionsNodup (s : Sessions) : Prop :=
  NodupKeys s.user_sid_to_name_sessions ∧ NodupKeys s.user_name_to_sid_sessions

theorem SessionsNodup.add_user_preserved {s : Sessions} (h : SessionsNodup s) (name sid : String) :
    SessionsNodup (s.add_user name sid) :=
  ⟨h.1.upsert sid name, h.2.upsert name sid⟩

theorem SessionsNodup.remove_user_by_sid_preserved {s : Sessions} (h : SessionsNodup s) (sid : String) :
    SessionsNodup (s.remove_user_by_sid sid) := by
  unfold Sessions.remove_user_by_sid
  split
  · dsimp only
    split
    · exact ⟨h.1.eraseKey sid, h.2.eraseKey _⟩
    · exact h
  · exact h

theorem step_sessions_nodup (ttl : Time) (st : ServerState) (e : Event)
    (h : SessionsNodup st.sessions) : SessionsNodup (step ttl st e).sessions := by
  cases e with
  | connect sid name now =>
    show SessionsNodup (handle_start ttl st sid name now).state.sessions
    rw [handle_start_sessions]
    split
    · exact h
    · exact h.add_user_preserved name sid
  | disconnect sid now =>
    show SessionsNodup (handle_disconnect st sid now).sessions
    rw [handle_disconnect_sessions]
    exact h.remove_user_by_sid_preserved sid

theorem run_sessions_nodup (ttl : Time) (evs : List Event) :
    ∀ st : ServerState, SessionsNodup st.sessions →
      SessionsNodup (run ttl st evs).sessions := by
  induction evs with
  | nil => exact fun st h => h
  | cons e es ih => exact fun st h => ih _ (step_sessions_nodup ttl st e h)

/-- In an association list with duplicate-free keys at most one entry
carries a given key. -/
theorem NodupKeys.filter_key_length {α β : Type} [DecidableEq α] {l : List (α × β)}
    (h : NodupKeys l) (u : α) :
    (l.filter (fun e => decide (e.1 = u))).length ≤ 1 := by
  induction l with
  | nil => simp
  | cons e rest ih =>
    simp only [NodupKeys, List.map_cons, List.nodup_cons] at h
    by_cases he : e.1 = u
    · have hnil : rest.filter (fun x => decide (x.1 = u)) = [] := by
        rw [List.filter_eq_nil_iff]
        intro x hx
        simp only [decide_eq_true_eq]
        intro hxu
        exact h.1 (by
          have : x.1 = e.1 := hxu.trans he.symm
          exact this ▸ List.mem_map_of_mem Prod.fst hx)
      simp [List.filter_cons, he, hnil]
    · simpa [List.filter_cons, he] using ih h.2

/-- Claim C3: across every sequence of connect and disconnect events from
the initial state, at most one connection handle is bound to a given user
name; and a `start` for a user who already has a live session is rejected
(the new connection is terminated) with the whole broker state unchanged. -/
theorem single_session_invariant :
    (∀ (ttl : Time) (evs : List Event) (u : String),
        ((run ttl initState evs).sessions.user_name_to_sid_sessions.filter
          (fun e => decide (e.1 = u))).length ≤ 1)
    ∧ (∀ (ttl : Time) (st : ServerState) (sid u : String) (now : Time),
        st.sessions.is_user_connected u = true →
        handle_start ttl st sid u now = ⟨st, [], true⟩) := by
  constructor
  · intro ttl evs u
    have h := run_sessions_nodup ttl evs initState
      ⟨by simp [NodupKeys, initState], by simp [NodupKeys, initState]⟩
    exact h.2.filter_key_length u
  · intro ttl st sid u now h
    unfold handle_start
    rw [if_pos (by simp [h])]

/-- Witness for C3: a second `start` for `alice` on a new sid is rejected
and changes nothing. -/
theorem single_session_invariant_witness :
    handle_start 10 (run 10 initState [.connect "s1" "alice" 0]) "s2" "alice" 1
      = ⟨run 10 initState [.connect "s1" "alice" 0], [], true⟩ :=
  single_session_invariant.2 10 (run 10 initState [.connect "s1" "alice" 0])
    "s2" "alice" 1 (by decide)

/-- Claim C4 (counterexample): a reachable state — a client connects as
`alice` and then emits `start` again as `bob` on the same connection —
where the two session maps are not a bijection: `alice` is still recorded
as connected to `s1`, but `s1` maps back to `bob`. -/
theorem session_bijection_cex :
    (run 10 initState
        [.connect "s1" "alice" 0, .connect "s1" "bob" 1]).sessions.is_user_connected "alice"
        = true
    ∧ (run 10 initState
        [.connect "s1" "alice" 0, .connect "s1" "bob" 1]).sessions.get_user_sid "alice"
        = some "s1"
    ∧ (run 10 initState
        [.connect "s1" "alice" 0, .connect "s1" "bob" 1]).sessions.get_user_name "s1"
        ≠ some "alice" := by decide

/-- The invariant tying the two session maps together: duplicate-free keys
on both sides and entry-wise mirroring. -/
def SessionsInv (s : Sessions) : Prop :=
  NodupKeys s.user_sid_to_name_sessions ∧ NodupKeys s.user_name_to_sid_sessions ∧
  ∀ n sid2 : String, (n, sid2) ∈ s.user_name_to_sid_sessions
    ↔ (sid2, n) ∈ s.user_sid_to_name_sessions

/-- A run in which every connect event carries a connection handle that is
not currently registered (the transport's behavior: fresh sid per
connection, one `start` per connection). -/
def freshRun (ttl : Time) (st : ServerState) : List Event → Bool
  | [] => true
  | e :: es =>
    match e with
    | .connect sid _ _ =>
      !hasKey st.sessions.user_sid_to_name_sessions sid && freshRun ttl (step ttl st e) es
    | .disconnect _ _ => freshRun ttl (step ttl st e) es

theorem SessionsInv.add_user_inv {s : Sessions} (h : SessionsInv s) {name sid : String}
    (hn : s.is_user_connected name = false)
    (hs : hasKey s.user_sid_to_name_sessions sid = false) :
    SessionsInv (s.add_user name sid) := by
  have e1 : upsert s.user_sid_to_name_sessions sid name
      = s.user_sid_to_name_sessions ++ [(sid, name)] := upsert_of_not_hasKey name hs
  have e2 : upsert s.user_name_to_sid_sessions name sid
      = s.user_name_to_sid_sessions ++ [(name, sid)] := upsert_of_not_hasKey sid hn
  refine ⟨h.1.upsert sid name, h.2.1.upsert name sid, ?_⟩
  intro n sid2
  show (n, sid2) ∈ upsert s.user_name_to_sid_sessions name sid
    ↔ (sid2, n) ∈ upsert s.user_sid_to_name_sessions sid name
  rw [e1, e2]
  simp only [List.mem_append, List.mem_singleton, Prod.mk.injEq]
  rw [h.2.2 n sid2]
  tauto

theorem SessionsInv.remove_user_by_sid_inv {s : Sessions} (h : SessionsInv s) (sid : String) :
    SessionsInv (s.remove_user_by_sid sid) := by
  unfold Sessions.remove_user_by_sid
  by_cases hk : hasKey s.user_sid_to_name_sessions sid = true
  · rw [if_pos hk]
    dsimp only
    have hmem : (sid, lookupD s.user_sid_to_name_sessions sid "") ∈ s.user_sid_to_name_sessions :=
      mem_of_hasKey_lookupD "" hk
    have hmem2 : (lookupD s.user_sid_to_name_sessions sid "", sid)
        ∈ s.user_name_to_sid_sessions := (h.2.2 _ _).2 hmem
    rw [if_pos (hasKey_of_mem hmem2)]
    refine ⟨h.1.eraseKey sid, h.2.1.eraseKey _, ?_⟩
    intro n sid2
    rw [mem_eraseKey, mem_eraseKey]
    simp only
    constructor
    · rintro ⟨hin, hne⟩
      have hin' := (h.2.2 n sid2).1 hin
      refine ⟨hin', ?_⟩
      intro heq
      subst heq
      exact hne (h.1.value_eq hin' hmem)
    · rintro ⟨hin, hne⟩
      have hin' := (h.2.2 n sid2).2 hin
      refine ⟨hin', ?_⟩
      intro heq
      subst heq
      exact hne (h.2.1.value_eq hin' hmem2)
  · rw [if_neg hk]
    exact h

theorem freshRun_inv (evs : List Event) (ttl : Time) :
    ∀ st : ServerState, SessionsInv st.sessions → freshRun ttl st evs = true →
      SessionsInv (run ttl st evs).sessions := by
  induction evs with
  | nil => exact fun st h _ => h
  | cons e es ih =>
    intro st h hf
    cases e with
    | connect sid name now =>
      simp only [freshRun, Bool.and_eq_true, Bool.not_eq_true'] at hf
      refine ih _ ?_ hf.2
      show SessionsInv (handle_start ttl st sid name now).state.sessions
      rw [handle_start_sessions]
      by_cases hc : st.sessions.is_user_connected name = true
      · rw [if_pos (by simp [hc])]
        exact h
      · rw [if_neg (by simp [hc])]
        exact h.add_user_inv (Bool.not_eq_true _ ▸ hc) hf.1
    | disconnect sid now =>
      simp only [freshRun] at hf
      refine ih _ ?_ hf
      show SessionsInv (handle_disconnect st sid now).sessions
      rw [handle_disconnect_sessions]
      exact h.remove_user_by_sid_inv sid

/-- The bijection reading of `SessionsInv` through the accessors. -/
theorem SessionsInv.bijective {s : Sessions} (h : SessionsInv s) :
    (∀ u sid2 : String, s.get_user_sid u = some sid2 → s.get_user_name sid2 = some u)
    ∧ (∀ sid2 u : String, s.get_user_name sid2 = some u → s.get_user_sid u = some sid2) := by
  constructor
  · intro u sid2 hg
    unfold Sessions.get_user_sid at hg
    by_cases hc : s.is_user_connected u = true
    · rw [if_pos hc] at hg
      obtain rfl := Option.some.inj hg
      have hmem : (u, lookupD s.user_name_to_sid_sessions u "")
          ∈ s.user_name_to_sid_sessions := mem_of_hasKey_lookupD "" hc
      have hmem2 := (h.2.2 _ _).1 hmem
      unfold Sessions.get_user_name
      rw [if_pos (hasKey_of_mem hmem2)]
      exact congrArg some (h.1.lookupD_eq hmem2 "")
    · rw [if_neg hc] at hg
      simp at hg
  · intro sid2 u hg
    unfold Sessions.get_user_name at hg
    by_cases hc : hasKey s.user_sid_to_name_sessions sid2 = true
    · rw [if_pos hc] at hg
      obtain rfl := Option.some.inj hg
      have hmem : (sid2, lookupD s.user_sid_to_name_sessions sid2 "")
          ∈ s.user_sid_to_name_sessions := mem_of_hasKey_lookupD "" hc
      have hmem2 := (h.2.2 _ _).2 hmem
      unfold Sessions.get_user_sid
      rw [if_pos (show s.is_user_connected _ = true from hasKey_of_mem hmem2)]
      exact congrArg some (h.2.1.lookupD_eq hmem2 "")
    · rw [if_neg hc] at hg
      simp at hg

/-- Claim C4 (amended): the strict bijection between user names and
connection handles holds in every state reached by connect/disconnect
events in which each connect's handle is not currently registered (as the
transport guarantees for distinct connections); without that freshness
assumption a repeated `start` on one connection breaks it
(see the counterexample). -/
theorem session_bijection_fresh_handles (ttl : Time) (evs : List Event)
    (hfresh : freshRun ttl initState evs = true) :
    (∀ u sid2 : String, (run ttl initState evs).sessions.get_user_sid u = some sid2 →
        (run ttl initState evs).sessions.get_user_name sid2 = some u)
    ∧ (∀ sid2 u : String, (run ttl initState evs).sessions.get_user_name sid2 = some u →
        (run ttl initState evs).sessions.get_user_sid u = some sid2) :=
  (freshRun_inv evs ttl initState
    ⟨by simp [NodupKeys, initState], by simp [NodupKeys, initState], by simp [initState]⟩
    hfresh).bijective

/-- Witness for the amended C4 on a concrete fresh-handle run. -/
theorem session_bijection_fresh_handles_witness :
    (run 10 initState
      [.connect "s1" "alice" 0, .disconnect "s1" 1,
       .connect "s2" "alice" 2]).sessions.get_user_name "s2" = some "alice" :=
  (session_bijection_fresh_handles 10
      [.connect "s1" "alice" 0, .disconnect "s1" 1, .connect "s2" "alice" 2]
      (by decide)).1 "alice" "s2" (by decide)

/-! ## First-time connects -/

theorem disconnectedTimeOf_of_not_hasKey (st : ServerState) (u : String)
    (h : hasKey st.last_disconnected_time (some u) = false) :
    disconnectedTimeOf st u = 0 := by
  unfold disconnectedTimeOf
  rw [h]
  simp

/-- Claim C1 (counterexample): a first-time connect (no recorded
last-disconnect) with a pending message on a subscribed topic replays that
message — the catch-up phase is not empty. -/
theorem first_connect_replay_nonempty_cex :
    hasKey (⟨⟨[("alice", ["news"])], [("news", ["alice"])]⟩,
        [("news", [⟨5, "hi", ["alice"]⟩])], ⟨[], []⟩, []⟩ : ServerState).last_disconnected_time
      (some "alice") = false
    ∧ (handle_start 10 ⟨⟨[("alice", ["news"])], [("news", ["alice"])]⟩,
        [("news", [⟨5, "hi", ["alice"]⟩])], ⟨[], []⟩, []⟩ "s" "alice" 6).emits
      = [⟨"news", 5, "hi"⟩]
    ∧ (handle_start 10 ⟨⟨[("alice", ["news"])], [("news", ["alice"])]⟩,
        [("news", [⟨5, "hi", ["alice"]⟩])], ⟨[], []⟩, []⟩ "s" "alice" 6).emits
      ≠ [] := by decide

/-- Claim C1 (amended): for a user with no recorded last-disconnect time
the sentinel is epoch zero, so `handle_start` replays, on every subscribed
topic, the entire post-eviction log (every stored publish time is
non-negative, hence at or after the sentinel) — not nothing. -/
theorem first_connect_replays_all_pending (ttl : Time) (st : ServerState) (sid u : String)
    (now : Time)
    (hconn : st.sessions.is_user_connected u = false)
    (hnew : hasKey st.last_disconnected_time (some u) = false)
    (hpos : ∀ t, ∀ m ∈ lookupD st.pending t [], 0 ≤ m.publish_time)
    (hnd : (st.subs.get_topics u).Nodup) :
    (handle_start ttl st sid u now).emits
      = ((st.subs.get_topics u).map (fun t =>
          (remove_old_messages_topic ttl now (lookupD st.pending t [])).map
            (fun m => (⟨t, m.publish_time, m.content⟩ : Emit)))).flatten := by
  rw [handle_start_not_connected ttl st sid u now hconn]
  simp only
  rw [handle_topics_emits u _ _ _ hnd]
  congr 1
  apply List.map_congr_left
  intro t _
  rw [lookupD_remove_old, disconnectedTimeOf_of_not_hasKey st u hnew]
  have hpos' : ∀ m ∈ remove_old_messages_topic ttl now (lookupD st.pending t []),
      (0 : Time) ≤ m.publish_time := fun m hm =>
    hpos t m ((remove_old_messages_topic_sublist ttl now _).subset hm)
  cases hl : remove_old_messages_topic ttl now (lookupD st.pending t []) with
  | nil => simp [process_topic, find_start_index]
  | cons m rest =>
    have h0 : (0 : Time) ≤ m.publish_time := hpos' m (hl ▸ List.mem_cons_self m rest)
    unfold process_topic
    rw [show find_start_index 0 (m :: rest) = some 0 from by simp [find_start_index, h0]]
    simp

/-- Witness for the amended C1: the concrete first-time connect of the
counterexample replays the whole pending log of `"news"`. -/
theorem first_connect_replays_all_pending_witness :
    (handle_start 10 (⟨⟨[("alice", ["news"])], [("news", ["alice"])]⟩,
        [("news", [⟨5, "hi", ["alice"]⟩])], ⟨[], []⟩, []⟩ : ServerState) "s" "alice" 6).emits
      = (((⟨⟨[("alice", ["news"])], [("news", ["alice"])]⟩,
          [("news", [⟨5, "hi", ["alice"]⟩])], ⟨[], []⟩, []⟩ : ServerState).subs.get_topics
            "alice").map (fun t =>
          (remove_old_messages_topic 10 6
            (lookupD [("news", [⟨5, "hi", ["alice"]⟩])] t [])).map
            (fun m => (⟨t, m.publish_time, m.content⟩ : Emit)))).flatten :=
  first_connect_replays_all_pending 10
    ⟨⟨[("alice", ["news"])], [("news", ["alice"])]⟩,
      [("news", [⟨5, "hi", ["alice"]⟩])], ⟨[], []⟩, []⟩ "s" "alice" 6
    (by decide) (by decide)
    (by
      intro t m hm
      by_cases h : ("news" : String) = t
      · subst h
        simp only [lookupD, if_pos rfl] at hm
        rcases List.mem_singleton.1 hm with rfl
        decide
      · simp [lookupD, h] at hm)
    (by decide)

/-! ## Publish fan-out bookkeeping -/

/-- Claim C5: publish appends a pending message with owed set exactly the
offline subscribers (subscribers minus connected users), and appends
nothing — leaving the whole state unchanged — when every subscriber is
connected; when it stores, only the published topic's log changes. -/
theorem publish_stores_iff_offline (st : ServerState) (topic content : String) (pt : Time) :
    (get_pending_users st topic
        = (st.subs.get_users topic).filter
            (fun u => decide (u ∉ st.sessions.get_all_connected_user_names)))
    ∧ (get_pending_users st topic = [] → publish_one st topic content pt = st)
    ∧ (get_pending_users st topic ≠ [] →
        lookupD (publish_one st topic content pt).pending topic []
            = lookupD st.pending topic [] ++ [⟨pt, content, get_pending_users st topic⟩]
        ∧ (∀ t, t ≠ topic → lookupD (publish_one st topic content pt).pending t []
            = lookupD st.pending t [])
        ∧ (publish_one st topic content pt).subs = st.subs
        ∧ (publish_one st topic content pt).sessions = st.sessions
        ∧ publish_one st topic content pt ≠ st) := by
  refine ⟨?_, ?_, ?_⟩
  · unfold get_pending_users
    apply List.filter_congr
    intro u _
    unfold Sessions.is_user_connected Sessions.get_all_connected_user_names
    cases h : hasKey st.sessions.user_name_to_sid_sessions u with
    | true => simp [(hasKey_iff _ u).1 h]
    | false =>
      have hnm : u ∉ st.sessions.user_name_to_sid_sessions.map Prod.fst := by
        intro hm
        rw [(hasKey_iff _ u).2 hm] at h
        exact Bool.noConfusion h
      simp [hnm]
  · intro h
    unfold publish_one
    simp [h]
  · intro h
    obtain ⟨U, hU⟩ := List.exists_mem_of_ne_nil _ h
    rw [publish_one_of_offline content pt hU]
    refine ⟨lookupD_upsert_self _ _ _ _,
      fun t ht => lookupD_upsert_ne _ _ _ ht, rfl, rfl, ?_⟩
    intro heq
    have h1 := congrArg (fun x : ServerState => lookupD x.pending topic []) heq
    simp only at h1
    rw [lookupD_upsert_self] at h1
    have h2 := congrArg List.length h1
    simp at h2

/-- Witness for C5: with the only subscriber connected nothing is stored
and the state is unchanged. -/
theorem publish_stores_iff_offline_witness :
    publish_one (⟨⟨[("u", ["t"])], [("t", ["u"])]⟩, [],
        ⟨[("s", "u")], [("u", "s")]⟩, []⟩ : ServerState) "t" "m" 3
      = ⟨⟨[("u", ["t"])], [("t", ["u"])]⟩, [], ⟨[("s", "u")], [("u", "s")]⟩, []⟩ :=
  (publish_stores_iff_offline
    ⟨⟨[("u", ["t"])], [("t", ["u"])]⟩, [], ⟨[("s", "u")], [("u", "s")]⟩, []⟩
    "t" "m" 3).2.1 (by decide)

/-! ## TTL eviction -/

/-- Claim C6: the eviction loop pops exactly the head run of messages older
than `now - ttl`; and since `handle_start` runs it before any replay, a
connect more than `ttl` seconds after a message's publish time never
delivers a message carrying that publish time (given the ascending-time
log invariant the eviction relies on). -/
theorem ttl_eviction_head_run :
    (∀ (ttl now : Time) (log : List Message),
        remove_old_messages_topic ttl now log
          = log.dropWhile (fun m => decide (m.publish_time < now - ttl)))
    ∧ (∀ (ttl : Time) (st : ServerState) (sid u : String) (now tp : Time),
        (∀ t, (lookupD st.pending t []).Pairwise
          (fun a b => a.publish_time ≤ b.publish_time)) →
        tp < now - ttl →
        ∀ e ∈ (handle_start ttl st sid u now).emits, e.publish_time ≠ tp) := by
  refine ⟨remove_old_messages_topic_eq_dropWhile, ?_⟩
  intro ttl st sid u now tp hsorted htp e he heq
  by_cases hconn : st.sessions.is_user_connected u = true
  · unfold handle_start at he
    rw [if_pos (by simp [hconn])] at he
    simp at he
  · rw [handle_start_not_connected ttl st sid u now (by simpa using hconn)] at he
    simp only at he
    have hbound := handle_topics_emits_bound u (disconnectedTimeOf st u)
      (st.subs.get_topics u) (remove_old_messages ttl now st.pending)
      (fun x => now - ttl ≤ x) ?_ e he
    · rw [heq] at hbound
      exact absurd hbound (not_le.2 htp)
    · intro t m hm
      rw [lookupD_remove_old] at hm
      exact remove_old_messages_topic_bound ttl now _ (hsorted t) m hm

/-- Witness for C6: with an expired message (published at 0) and a fresh
one (published at 15) pending, a connect at time 20 with ttl 10 delivers
only emissions whose publish time is not 0. -/
theorem ttl_eviction_head_run_witness :
    ((⟨"t", 15, "new"⟩ : Emit)).publish_time ≠ 0 :=
  (ttl_eviction_head_run.2 10
      ⟨⟨[("u", ["t"])], [("t", ["u"])]⟩,
        [("t", [⟨0, "old", ["u"]⟩, ⟨15, "new", ["u"]⟩])], ⟨[], []⟩, [(some "u", 0)]⟩
      "s" "u" 20 0
      (by
        intro t
        by_cases h : ("t" : String) = t
        · subst h
          decide
        · show List.Pairwise _ (lookupD [("t", [⟨0, "old", ["u"]⟩, ⟨15, "new", ["u"]⟩])] t [])
          simp [lookupD, h])
      (by decide))
    ⟨"t", 15, "new"⟩ (by decide)

/-! ## Unsubscribe -/

/-- Claim C7 (counterexample): with the pair ("bob","news") absent but both
keys present — bob subscribed to "food", "news" having subscriber alice —
`Subscriptions.remove_user` raises `KeyError` (modelled as `none`) instead
of being a no-op. -/
theorem remove_user_keyerror_cex :
    "news" ∉ (⟨[("bob", ["food"])], [("news", ["alice"]), ("food", ["bob"])]⟩ :
        Subscriptions).get_topics "bob"
    ∧ (⟨[("bob", ["food"])], [("news", ["alice"]), ("food", ["bob"])]⟩ :
        Subscriptions).remove_user "bob" "news" = none := by decide

/-- Claim C7 (amended): `Subscriptions.remove_user` is a no-op only when
the user key or the topic key is absent from the respective view; when the
pair is present in both views it removes it from both; when both keys are
present but the pair is absent it raises `KeyError` (the counterexample).
The HTTP unsubscribe loop guards the call with pair membership in the
user's topic set and is a state no-op for absent pairs. -/
theorem unsubscribe_guarded_total :
    (∀ (s : Subscriptions) (u t : String),
        hasKey s.user_to_topic_subscriptions u = false
          ∨ hasKey s.topic_to_user_subscriptions t = false →
        s.remove_user u t = some s)
    ∧ (∀ (s : Subscriptions) (u t : String),
        t ∈ s.get_topics u → u ∈ s.get_users t →
        ∃ s2, s.remove_user u t = some s2
          ∧ s2.get_topics u = (s.get_topics u).erase t
          ∧ s2.get_users t = (s.get_users t).erase u)
    ∧ (∀ (st : ServerState) (u t : String),
        t ∉ st.subs.get_topics u → unsubscribe_topic st u t = some st) := by
  refine ⟨?_, ?_, ?_⟩
  · intro s u t h
    unfold Subscriptions.remove_user
    rcases h with h | h <;> simp [h]
  · intro s u t h1 h2
    unfold Subscriptions.get_topics at h1
    unfold Subscriptions.get_users at h2
    have hk1 : hasKey s.user_to_topic_subscriptions u = true := by
      cases hh : hasKey s.user_to_topic_subscriptions u with
      | false =>
        rw [lookupD_of_not_hasKey [] hh] at h1
        simp at h1
      | true => rfl
    have hk2 : hasKey s.topic_to_user_subscriptions t = true := by
      cases hh : hasKey s.topic_to_user_subscriptions t with
      | false =>
        rw [lookupD_of_not_hasKey [] hh] at h2
        simp at h2
      | true => rfl
    unfold Subscriptions.remove_user
    rw [hk1, hk2]
    rw [show setRemove (lookupD s.user_to_topic_subscriptions u []) t
        = some ((lookupD s.user_to_topic_subscriptions u []).erase t) from by
      simp [setRemove, h1]]
    rw [show setRemove (lookupD s.topic_to_user_subscriptions t []) u
        = some ((lookupD s.topic_to_user_subscriptions t []).erase u) from by
      simp [setRemove, h2]]
    simp only [Bool.and_self, if_true]
    refine ⟨_, rfl, ?_, ?_⟩
    · exact lookupD_upsert_self _ _ _ _
    · exact lookupD_upsert_self _ _ _ _
  · intro st u t h
    unfold unsubscribe_topic
    rw [if_neg h]

/-- Witness for the amended C7: unsubscribing a user with no subscription
entry is a no-op, and a present pair is removed from both views. -/
theorem unsubscribe_guarded_total_witness :
    (⟨[], [("news", ["alice"])]⟩ : Subscriptions).remove_user "bob" "news"
      = some ⟨[], [("news", ["alice"])]⟩ :=
  unsubscribe_guarded_total.1 ⟨[], [("news", ["alice"])]⟩ "bob" "news"
    (Or.inl (by decide))

/-! ## Disconnect of an unknown connection -/

/-- Claim C8: `handle_disconnect` with an unknown connection handle leaves
the session registry, the subscription registry, the pending store, and —
for every user name — the observable last-disconnect time unchanged (the
write lands under the `None` key), and it never fails. -/
theorem disconnect_unknown_noop (st : ServerState) (sid : String) (now : Time)
    (h : hasKey st.sessions.user_sid_to_name_sessions sid = false) :
    (handle_disconnect st sid now).sessions = st.sessions
    ∧ (handle_disconnect st sid now).subs = st.subs
    ∧ (handle_disconnect st sid now).pending = st.pending
    ∧ ∀ u : String, disconnectedTimeOf (handle_disconnect st sid now) u
        = disconnectedTimeOf st u := by
  have hname : st.sessions.get_user_name sid = none := by
    unfold Sessions.get_user_name
    rw [if_neg (by simp [h])]
  refine ⟨?_, rfl, rfl, ?_⟩
  · rw [handle_disconnect_sessions]
    unfold Sessions.remove_user_by_sid
    rw [if_neg (by simp [h])]
  · intro u
    show (if hasKey (upsert st.last_disconnected_time (st.sessions.get_user_name sid) now)
        (some u) = true then
        lookupD (upsert st.last_disconnected_time (st.sessions.get_user_name sid) now)
          (some u) 0
      else 0) = disconnectedTimeOf st u
    rw [hname,
      hasKey_upsert_ne _ now (show (some u : Option String) ≠ none by simp),
      lookupD_upsert_ne _ now 0 (show (some u : Option String) ≠ none by simp)]
    rfl

/-- Witness for C8 at a concrete state with a live session for alice and a
recorded disconnect time. -/
theorem disconnect_unknown_noop_witness :
    disconnectedTimeOf
        (handle_disconnect
          (⟨⟨[("alice", ["news"])], [("news", ["alice"])]⟩, [],
            ⟨[("s1", "alice")], [("alice", "s1")]⟩, [(some "alice", 3)]⟩ : ServerState)
          "zz" 9) "alice"
      = disconnectedTimeOf
          (⟨⟨[("alice", ["news"])], [("news", ["alice"])]⟩, [],
            ⟨[("s1", "alice")], [("alice", "s1")]⟩, [(some "alice", 3)]⟩ : ServerState)
          "alice" :=
  (disconnect_unknown_noop
    ⟨⟨[("alice", ["news"])], [("news", ["alice"])]⟩, [],
      ⟨[("s1", "alice")], [("alice", "s1")]⟩, [(some "alice", 3)]⟩
    "zz" 9 (by decide)).2.2.2 "alice"

/-! ## Bounds checking in `get_message` -/

/-- Claim C10: `get_message` returns the stored message for every in-range
index and `None` — never a failure — for negative indices, too-large
indices, and topics with no log. -/
theorem get_message_range (p : PendingStore) (t : String) (i : Int) :
    (∀ (_h0 : 0 ≤ i) (hlt : i.toNat < (lookupD p t []).length),
        get_message p t i = some ((lookupD p t []).get ⟨i.toNat, hlt⟩))
    ∧ (i < 0 → get_message p t i = none)
    ∧ ((get_topic_size p t : Int) ≤ i → get_message p t i = none)
    ∧ (hasKey p t = false → get_message p t i = none) := by
  refine ⟨?_, ?_, ?_, ?_⟩
  · intro h0 hlt
    unfold get_message
    rw [if_pos ⟨h0, by unfold get_topic_size; omega⟩]
    exact List.get?_eq_get hlt
  · intro hneg
    unfold get_message
    rw [if_neg (by omega)]
  · intro hge
    unfold get_message
    rw [if_neg (by omega)]
  · intro hk
    have hnil : lookupD p t [] = ([] : List Message) := lookupD_of_not_hasKey [] hk
    have hsz : get_topic_size p t = 0 := by
      unfold get_topic_size
      rw [hnil]
      rfl
    unfold get_message
    rw [hsz, if_neg (by omega)]

/-- Witness for C10: out-of-range and unknown-topic reads at a concrete
store. -/
theorem get_message_range_witness :
    get_message [("t", [⟨1, "a", ["u"]⟩])] "t" (-1) = none
    ∧ get_message [("t", [⟨1, "a", ["u"]⟩])] "t" 1 = none
    ∧ get_message [] "t" 0 = none
    ∧ get_message [("t", [⟨1, "a", ["u"]⟩])] "t" 0
        = some ((lookupD [("t", [⟨1, "a", ["u"]⟩])] "t" []).get ⟨(0 : Int).toNat, by decide⟩) :=
  ⟨(get_message_range [("t", [⟨1, "a", ["u"]⟩])] "t" (-1)).2.1 (by decide),
   (get_message_range [("t", [⟨1, "a", ["u"]⟩])] "t" 1).2.2.1 (by decide),
   (get_message_range [] "t" 0).2.2.2 (by decide),
   (get_message_range [("t", [⟨1, "a", ["u"]⟩])] "t" 0).1 (by decide) (by decide)⟩

/-! ## CPython default-argument semantics for `Message` / `PendingMessages`

CPython evaluates a `def`'s default-value expressions once, when the `def`
statement itself runs (at module import), and stores the resulting objects
on the function; every later call that omits the argument receives the
*same* object.  To state claim C9, object identity of the two default
containers is made explicit with a small heap: set objects and topic-log
dict objects live at numeric references, and a default-constructed
`Message` / `PendingMessages` stores the reference allocated at import. -/

/-- A `Message` whose `pending_users` attribute is a reference to a heap
set object. -/
structure PyMessage where
  publish_time : Time
  content : String
  pendingRef : Nat
  deriving DecidableEq

/-- A `PendingMessages` whose `messages` attribute is a reference to a heap
dict object. -/
structure PyPendingMessages where
  ttl : Time
  messagesRef : Nat
  deriving DecidableEq

/-- The mutable heap: set objects and topic-log dict objects by reference. -/
structure PyHeap where
  nextRef : Nat
  sets : Nat → List String
  maps : Nat → List (String × List PyMessage)

def PyHeap.allocSet (h : PyHeap) (init : List String) : PyHeap × Nat :=
  (⟨h.nextRef + 1, fun r => if r = h.nextRef then init else h.sets r, h.maps⟩, h.nextRef)

def PyHeap.allocMap (h : PyHeap) : PyHeap × Nat :=
  (⟨h.nextRef + 1, h.sets, fun r => if r = h.nextRef then [] else h.maps r⟩, h.nextRef)

/-- The state after executing `helper_types.py`'s `def` lines at import
time `t0`: the captured value of `time()`, the `set()` object shared by
`Message.__init__`'s default, and the `defaultdict` object shared by
`PendingMessages.__init__`'s default. -/
structure PyModule where
  heap : PyHeap
  msg_default_publish_time : Time
  msg_default_pending_ref : Nat
  pm_default_messages_ref : Nat

def pyModuleLoad (t0 : Time) : PyModule :=
  let a1 := PyHeap.allocSet ⟨0, fun _ => [], fun _ => []⟩ []
  let a2 := PyHeap.allocMap a1.1
  ⟨a2.1, t0, a1.2, a2.2⟩

/-- `Message()` with no arguments: the stored attributes are the default
objects evaluated at import time — no fresh allocation happens. -/
def mkMessageDefault (M : PyModule) : PyMessage :=
  ⟨M.msg_default_publish_time, "", M.msg_default_pending_ref⟩

/-- `PendingMessages(ttl=...)` without a `messages` argument: the stored
map is the import-time default dict object. -/
def mkPendingMessagesDefault (M : PyModule) (ttl : Time) : PyPendingMessages :=
  ⟨ttl, M.pm_default_messages_ref⟩

/-- Reading `message.pending_users` dereferences the heap. -/
def PyMessage.pending_users (h : PyHeap) (m : PyMessage) : List String :=
  h.sets m.pendingRef

/-- `Message.remove_user`: mutate the referenced set object in place. -/
def PyMessage.remove_user (h : PyHeap) (m : PyMessage) (u : String) : PyHeap :=
  if u ∈ h.sets m.pendingRef then
    { h with sets := fun r =>
        if r = m.pendingRef then (h.sets m.pendingRef).erase u else h.sets r }
  else h

/-- `PendingMessages.add_new_message`: mutate the referenced dict in place. -/
def PyPendingMessages.add_new_message (h : PyHeap) (pm : PyPendingMessages)
    (topic : String) (msg : PyMessage) : PyHeap :=
  { h with maps := fun r =>
      if r = pm.messagesRef then
        upsert (h.maps pm.messagesRef) topic (lookupD (h.maps pm.messagesRef) topic [] ++ [msg])
      else h.maps r }

/-- Reading `pending.messages[topic]`. -/
def PyPendingMessages.get_topic (h : PyHeap) (pm : PyPendingMessages) (topic : String) :
    List PyMessage :=
  lookupD (h.maps pm.messagesRef) topic []

/-- Claim C9: every default-constructed `Message` carries the same
`pending_users` set object and the fixed import-time publish time; every
default-constructed `PendingMessages` (even with different ttls) carries
the same topic-log dict object; and a mutation through one instance is
observable through the other — removing a user through one default message
changes what the other reads, and a message appended through one default
`PendingMessages` instance appears when reading through the other. -/
theorem mutable_default_sharing (t0 ttl1 ttl2 : Time) (topic : String) (msg : PyMessage) :
    (mkMessageDefault (pyModuleLoad t0)).pendingRef
        = (pyModuleLoad t0).msg_default_pending_ref
    ∧ (mkMessageDefault (pyModuleLoad t0)).publish_time = t0
    ∧ (mkPendingMessagesDefault (pyModuleLoad t0) ttl1).messagesRef
        = (mkPendingMessagesDefault (pyModuleLoad t0) ttl2).messagesRef
    ∧ (∀ (h : PyHeap) (u : String),
        PyMessage.pending_users
            (PyMessage.remove_user h (mkMessageDefault (pyModuleLoad t0)) u)
            (mkMessageDefault (pyModuleLoad t0))
          = (PyMessage.pending_users h (mkMessageDefault (pyModuleLoad t0))).erase u)
    ∧ PyPendingMessages.get_topic
        (PyPendingMessages.add_new_message (pyModuleLoad t0).heap
          (mkPendingMessagesDefault (pyModuleLoad t0) ttl1) topic msg)
        (mkPendingMessagesDefault (pyModuleLoad t0) ttl2) topic
      = [msg] := by
  refine ⟨rfl, rfl, rfl, ?_, ?_⟩
  · intro h u
    unfold PyMessage.remove_user PyMessage.pending_users
    by_cases hm : u ∈ h.sets (mkMessageDefault (pyModuleLoad t0)).pendingRef
    · rw [if_pos hm]
      simp
    · rw [if_neg hm]
      exact (List.erase_of_not_mem hm).symm
  · unfold PyPendingMessages.get_topic PyPendingMessages.add_new_message
      mkPendingMessagesDefault pyModuleLoad PyHeap.allocSet PyHeap.allocMap
    simp [lookupD, upsert]

end PubSub
